import Mathlib

/-!
Verification of the crossword CSP solver in `generate.py`
(class `CrosswordCreator`): node consistency, arc revision, AC-3,
backtracking search, and the solver facade `solve`.

The `Crossword` / `Variable` data model lives in `crossword.py`, which is
not part of the sources; those definitions are modelled from the spec
(section 3, "Data Model") and are marked as such.  Everything else is a
direct shallow embedding of `generate.py`:

* Python sets and dicts become association lists whose order fixes one
  concrete iteration order (Python's set/dict iteration order is an
  implementation artifact; the list order plays that role here).
* Python strings become `List Char`.  Python raises `IndexError` on an
  out-of-range index; the embedding totalises character access with a
  default `' '`.  Under the well-formedness assumptions used below
  (overlap indices within the variables' lengths, node-consistent
  domains) every access is in range, so the default is never observable.
* The only exceptions the claims turn on are modelled explicitly:
  `PyErr.keyError` for `self.domains[None]` in `backtrack` (a `KeyError`
  when `select_unassigned_variable` returns `None`), and
  `PyErr.outOfFuel` for exhaustion of the explicit recursion fuel that
  stands in for Python's unbounded recursion.  Worklist iteration in
  `ac3` likewise runs on an explicit fuel with a proved-sufficient bound.
-/

set_option maxRecDepth 4000

namespace CrosswordGen

/-- Modelled from the spec: one crossword slot — start cell `(i, j)`,
direction (one of two orthogonal axes), and length.  Equality is by all
four components.  (`crossword.py` is not in the sources.) -/
structure Variable where
  i : Nat
  j : Nat
  down : Bool
  length : Nat
deriving DecidableEq

/-- A word; Python strings become lists of characters. -/
abbrev Word := List Char

/-- Modelled from the spec: the abstract problem the core receives — the
variables, the shared initial word list, and the constraint graph.
`overlapsList` holds, for each ordered pair of distinct overlapping
variables (both directions, as the spec requires for AC-3 seeding), the
overlap record `(indexA, indexB)`.  Pairs without a common cell have no
entry.  (`crossword.py` is not in the sources.) -/
structure Crossword where
  vars : List Variable
  words : List Word
  overlapsList : List ((Variable × Variable) × (Nat × Nat))
deriving DecidableEq

/-- Association-list lookup (the embedding of Python dict indexing /
`dict.get`): first entry with the given key. -/
def assocGet {κ ν : Type} [DecidableEq κ] : List (κ × ν) → κ → Option ν
  | [], _ => none
  | p :: ps, k => if p.1 = k then some p.2 else assocGet ps k

/-- Association-list update (the embedding of Python `d[k] = v`): replace
the first entry with the given key, or append a fresh entry at the end
(Python dicts keep insertion order). -/
def assocSet {κ ν : Type} [DecidableEq κ] : List (κ × ν) → κ → ν → List (κ × ν)
  | [], k, v => [(k, v)]
  | p :: ps, k, v => if p.1 = k then (k, v) :: ps else p :: assocSet ps k v

/-- `self.crossword.overlaps.get((x, y))` — the overlap record of an
ordered pair, if any. -/
def overlapLookup (cw : Crossword) (x y : Variable) : Option (Nat × Nat) :=
  assocGet cw.overlapsList (x, y)

/-- Modelled from the spec: `self.crossword.neighbors(v)` — the variables
sharing a constraint with `v` (`crossword.py` is not in the sources; the
set's iteration order is determinised as the order of `cw.vars`). -/
def neighbors (cw : Crossword) (v : Variable) : List Variable :=
  cw.vars.filter (fun u => (u != v) && (overlapLookup cw v u).isSome)

/-- `self.domains`: mapping from variables to their candidate words. -/
abbrev Domains := List (Variable × List Word)

/-- A (partial) assignment: Python's `assignment` dict.  A value `none`
is the Python value `None` that `backtrack` stores when it undoes a
choice — the key stays present. -/
abbrev Assignment := List (Variable × Option Word)

/-- `self.domains[v]` (defaults to `[]`; in the program `v` is always a
key, Python would raise `KeyError` otherwise). -/
def domGet (doms : Domains) (v : Variable) : List Word :=
  (assocGet doms v).getD []

/-- `assignment` dict lookup: `none` = key absent (`v not in assignment`),
`some none` = key present with value `None`. -/
def dictGet (asg : Assignment) (v : Variable) : Option (Option Word) :=
  assocGet asg v

/-- `self.domains = {var: self.crossword.words.copy() for var in
self.crossword.variables}` (constructor of `CrosswordCreator`). -/
def initDomains (cw : Crossword) : Domains :=
  cw.vars.map (fun v => (v, cw.words))

/-- `enforce_node_consistency`: drop from each variable's domain every
word whose length differs from the variable's length. -/
def enforce_node_consistency (doms : Domains) : Domains :=
  doms.map (fun p => (p.1, p.2.filter (fun w => w.length == p.1.length)))

/-- The inner loop of `revise`: does some word of `dy` match `wx` on the
overlap `(xi, yi)`?  Character access `w[i]` is totalised with default
`' '` (Python would raise `IndexError` out of range; all in-program
accesses are in range under well-formedness). -/
def supported (dy : List Word) (xi yi : Nat) (wx : Word) : Bool :=
  dy.any (fun wy => wx.getD xi ' ' == wy.getD yi ' ')

/-- `revise(x, y)`: if `x` and `y` overlap at `(xi, yi)`, remove from
`x`'s domain every word with no supporting word in `y`'s current domain;
return whether anything was removed, together with the updated domains.
(Python mutates `self.domains[x]`; the pair threads that state.) -/
def revise (cw : Crossword) (doms : Domains) (x y : Variable) :
    Bool × Domains :=
  match overlapLookup cw x y with
  | none => (false, doms)
  | some (xi, yi) =>
    let dx := domGet doms x
    if (dx.filter (fun wx => !(supported (domGet doms y) xi yi wx))).isEmpty then
      (false, doms)
    else (true, assocSet doms x (dx.filter (supported (domGet doms y) xi yi)))

/-- Total size of all domains; the measure that bounds AC-3's worklist
iterations. -/
def totalSize (doms : Domains) : Nat :=
  (doms.map (fun p => p.2.length)).sum

/-- One worklist run of `ac3`, on explicit fuel (one unit per popped
arc).  `none` = fuel exhausted (never happens at `ac3FuelBound`, proved
below); otherwise exactly the Python loop: pop the first arc, `revise`,
fail if the revised domain emptied, else re-enqueue `(z, x)` for every
neighbor `z` of `x` not already pending. -/
def ac3Step (cw : Crossword) : Nat → Domains → List (Variable × Variable) →
    Option (Bool × Domains)
  | 0, _, _ => none
  | _ + 1, doms, [] => some (true, doms)
  | fuel + 1, doms, (x, y) :: rest =>
    let r := revise cw doms x y
    if r.1 then
      if (domGet r.2 x).isEmpty then some (false, r.2)
      else
        ac3Step cw fuel r.2
          (rest ++ ((neighbors cw x).filter
            (fun z => !(decide ((z, x) ∈ rest)))).map (fun z => (z, x)))
    else ac3Step cw fuel doms rest

/-- Fuel that always suffices for `ac3Step` (proved below): the queue
shrinks unless a domain shrinks, and each shrink enqueues at most one arc
per variable. -/
def ac3FuelBound (cw : Crossword) (doms : Domains)
    (arcs : List (Variable × Variable)) : Nat :=
  arcs.length + totalSize doms * cw.vars.length + 1

/-- `ac3(arcs)`: run the worklist to completion.  The default (`getD`)
is dead code at the proved-sufficient fuel bound. -/
def ac3 (cw : Crossword) (doms : Domains)
    (arcs : List (Variable × Variable)) : Bool × Domains :=
  (ac3Step cw (ac3FuelBound cw doms arcs) doms arcs).getD (false, doms)

/-- The seed queue of `ac3(arcs=None)`: every arc of the problem (`for
overlap in self.crossword.overlaps`). -/
def initialArcs (cw : Crossword) : List (Variable × Variable) :=
  cw.overlapsList.map Prod.fst

/-- `assignment_complete`: every variable of `self.domains` is a key of
the assignment and its value is not `None`. -/
def assignment_complete (doms : Domains) (asg : Assignment) : Bool :=
  doms.all (fun p =>
    match dictGet asg p.1 with
    | some (some _) => true
    | _ => false)

/-- `consistent(assignment)`: values pairwise distinct, each word as long
as its variable, overlapping assigned neighbors agree on the shared
character.  Python would raise `TypeError` on a `None` value reaching
`len` / indexing; the embedding totalises those with `getD []` (at every
call site of the program the assignment is complete, so no `None`
reaches this point). -/
def consistent (cw : Crossword) (asg : Assignment) : Bool :=
  if (asg.map Prod.snd).Nodup then
    asg.all (fun p =>
      let w := p.2.getD []
      (p.1.length == w.length) &&
      (neighbors cw p.1).all (fun nb =>
        match overlapLookup cw p.1 nb, dictGet asg nb with
        | some (xiyi), some nv =>
            w.getD xiyi.1 ' ' == (nv.getD []).getD xiyi.2 ' '
        | _, _ => true))
  else false

/-- The count `n[word]` of `order_domain_values`: unassigned neighbors
whose current domain contains the word. -/
def ruleOutCount (cw : Crossword) (doms : Domains) (asg : Assignment)
    (v : Variable) (w : Word) : Nat :=
  ((neighbors cw v).filter
    (fun nb => (dictGet asg nb).isNone && (domGet doms nb).contains w)).length

/-- Stable insertion into an ascending-by-key list: an earlier element is
placed before later elements with an equal key. -/
def insertByKey (key : Word → Nat) (x : Word) : List Word → List Word
  | [] => [x]
  | y :: ys => if key x ≤ key y then x :: y :: ys else y :: insertByKey key x ys

/-- Stable ascending sort by key (the behaviour of Python's `sorted`). -/
def sortByKey (key : Word → Nat) : List Word → List Word
  | [] => []
  | x :: xs => insertByKey key x (sortByKey key xs)

/-- `order_domain_values`: the variable's domain sorted ascending by
`ruleOutCount`, ties keeping the domain's order. -/
def order_domain_values (cw : Crossword) (doms : Domains) (v : Variable)
    (asg : Assignment) : List Word :=
  sortByKey (ruleOutCount cw doms asg v) (domGet doms v)

/-- The accumulator loop of `select_unassigned_variable`: scan the
domains mapping in order, keep the first unassigned variable whose
domain is strictly smaller than the best so far. -/
def selectLoop (asg : Assignment) :
    List (Variable × List Word) → Option (Nat × Variable) → Option (Nat × Variable)
  | [], acc => acc
  | p :: ps, acc =>
    if (dictGet asg p.1).isSome then selectLoop asg ps acc
    else
      match acc with
      | none => selectLoop asg ps (some (p.2.length, p.1))
      | some (m, u) =>
        if p.2.length < m then selectLoop asg ps (some (p.2.length, p.1))
        else selectLoop asg ps (some (m, u))

/-- `select_unassigned_variable`: minimum-remaining-values over the
variables not in the assignment; `none` is Python's `None` when every
variable is a key of the assignment. -/
def select_unassigned_variable (doms : Domains) (asg : Assignment) :
    Option Variable :=
  (selectLoop asg doms none).map Prod.snd

/-- Proof device: the same minimum-tracking loop as `selectLoop`, but
over a list from which the assigned variables have already been
filtered out; `selectLoop` is proved equal to it on the filtered list. -/
def minLoop : List (Variable × List Word) → Option (Nat × Variable) →
    Option (Nat × Variable)
  | [], acc => acc
  | p :: ps, acc =>
    match acc with
    | none => minLoop ps (some (p.2.length, p.1))
    | some (m, u) =>
      if p.2.length < m then minLoop ps (some (p.2.length, p.1))
      else minLoop ps (some (m, u))

/-- The errors the embedding distinguishes: `keyError` is Python's
`KeyError` from `self.domains[None]`; `outOfFuel` marks exhaustion of
the explicit recursion fuel (Python recursion is unbounded). -/
inductive PyErr where
  | keyError
  | outOfFuel
deriving DecidableEq

/-- The `for value in self.domains[var]` loop of `backtrack`: skip values
already among the assignment's values, otherwise assign, recurse via
`bt`, return the recursive result if it is truthy (a non-empty dict),
else set the variable back to `None` and continue.  The `Bool` of the
result is `true` when a dict (the assignment itself) was returned and
`false` when Python returned `None`; the `Assignment` is the dict's
state (mutations persist across the loop). -/
def tryValues (var : Variable)
    (bt : Assignment → Except PyErr (Bool × Assignment)) :
    List Word → Assignment → Except PyErr (Bool × Assignment)
  | [], asg => Except.ok (false, asg)
  | v :: vs, asg =>
    if asg.any (fun p => p.2 == some v) then tryValues var bt vs asg
    else
      match bt (assocSet asg var (some v)) with
      | Except.error e => Except.error e
      | Except.ok (found, asg2) =>
        if found && !asg2.isEmpty then Except.ok (true, asg2)
        else tryValues var bt vs (assocSet asg2 var none)

/-- `backtrack(assignment)`.  Return the assignment when it is complete
and consistent; otherwise pick a variable and try its domain values in
stored order.  When `select_unassigned_variable` returns `None`, Python
evaluates `self.domains[None]` and raises `KeyError`. -/
def backtrack (cw : Crossword) (doms : Domains) :
    Nat → Assignment → Except PyErr (Bool × Assignment)
  | 0, _ => Except.error PyErr.outOfFuel
  | fuel + 1, asg =>
    if assignment_complete doms asg && consistent cw asg then
      Except.ok (true, asg)
    else
      match select_unassigned_variable doms asg with
      | none => Except.error PyErr.keyError
      | some var => tryValues var (backtrack cw doms fuel) (domGet doms var) asg

/-- The domains `solve` hands to `backtrack`: node consistency, then the
full AC-3 run (its Boolean result is discarded by `solve`, only the
mutated domains persist — exactly as in the Python). -/
def solveDoms (cw : Crossword) : Domains :=
  (ac3 cw (enforce_node_consistency (initDomains cw)) (initialArcs cw)).2

/-- `solve()`: enforce node consistency, run `ac3()`, then backtrack
from the empty assignment. -/
def solve (cw : Crossword) (fuel : Nat) : Except PyErr (Bool × Assignment) :=
  backtrack cw (solveDoms cw) fuel []

/-- Reference variant following the spec's words for step 3 of
`backtrack`: identical search, except that the candidate values are
taken from `order_domain_values` instead of the stored domain order.
Used only to compare against the embedded `backtrack`. -/
def backtrackOdv (cw : Crossword) (doms : Domains) :
    Nat → Assignment → Except PyErr (Bool × Assignment)
  | 0, _ => Except.error PyErr.outOfFuel
  | fuel + 1, asg =>
    if assignment_complete doms asg && consistent cw asg then
      Except.ok (true, asg)
    else
      match select_unassigned_variable doms asg with
      | none => Except.error PyErr.keyError
      | some var =>
        tryValues var (backtrackOdv cw doms fuel)
          (order_domain_values cw doms var asg) asg

/-- Number of constraint-graph edges a variable participates in (the
"degree" of the degree heuristic). -/
def degree (cw : Crossword) (v : Variable) : Nat :=
  (neighbors cw v).length

/-- Well-formedness of a problem, all of it guaranteed by the grid
parser the spec describes: variables are distinct; the constraint graph
has one record per ordered pair, only between distinct known variables,
is symmetric (`(x,y) ↦ (i,j)` iff `(y,x) ↦ (j,i)`), and its indices lie
inside the variables' lengths; the word list has no duplicates. -/
def WF (cw : Crossword) : Prop :=
  cw.vars.Nodup ∧
  (cw.overlapsList.map Prod.fst).Nodup ∧
  cw.words.Nodup ∧
  ∀ e ∈ cw.overlapsList,
    e.1.1 ∈ cw.vars ∧ e.1.2 ∈ cw.vars ∧ e.1.1 ≠ e.1.2 ∧
    ((e.1.2, e.1.1), (e.2.2, e.2.1)) ∈ cw.overlapsList ∧
    e.2.1 < e.1.1.length ∧ e.2.2 < e.1.2.length

instance (cw : Crossword) : Decidable (WF cw) := by
  unfold WF
  infer_instance

/-- Arc consistency of the ordered pair `(x, y)` in a domain mapping:
every word of `x`'s domain has a supporting word in `y`'s domain
(vacuous when the pair has no overlap record). -/
def arcOK (cw : Crossword) (doms : Domains) (x y : Variable) : Prop :=
  ∀ xi yi, overlapLookup cw x y = some (xi, yi) →
    ∀ wx ∈ domGet doms x, supported (domGet doms y) xi yi wx = true

/-- A total word choice satisfying the node (length, membership in the
word list) constraints. -/
def nodeOK (cw : Crossword) (f : Variable → Word) : Prop :=
  ∀ v ∈ cw.vars, f v ∈ cw.words ∧ (f v).length = v.length

/-- A total word choice satisfying every arc (overlap) constraint of the
problem. -/
def arcSat (cw : Crossword) (f : Variable → Word) : Prop :=
  ∀ x y xi yi, overlapLookup cw x y = some (xi, yi) →
    x ∈ cw.vars → y ∈ cw.vars → (f x).getD xi ' ' = (f y).getD yi ' '

/-! ### Concrete problem instances used by witnesses and counterexamples -/

/-- Slot `A`: row 0, column 0, across, length 2. -/
def vA : Variable := ⟨0, 0, false, 2⟩

/-- Slot `B`: row 0, column 0, down, length 2. -/
def vB : Variable := ⟨0, 0, true, 2⟩

/-- Slot `C`: row 1, column 0, across, length 2. -/
def vC : Variable := ⟨1, 0, false, 2⟩

/-- Overlap records for `A`/`B` crossing with `A[0] == B[1]`. -/
def abOverlaps : List ((Variable × Variable) × (Nat × Nat)) :=
  [((vA, vB), (0, 1)), ((vB, vA), (1, 0))]

/-- Problem where the stored domain order differs from the
`order_domain_values` order: `A` and `B` overlap at `A[0] == B[1]`,
words `cc`, `cx`, `ac`.  After propagation `A ↦ [cc, cx]` and
`B ↦ [cc, ac]`, and `cx` is absent from `B`'s domain, so
`order_domain_values` puts it first for `A` while the stored order has
`cc` first; both orders lead to a solution, but to different ones. -/
def cwOrder : Crossword :=
  ⟨[vA, vB], [['c','c'], ['c','x'], ['a','c']], abOverlaps⟩

/-- Satisfiable problem on which the solver crashes: `A` and `B` overlap
at `A[0] == B[1]`, words `ab`, `bb`, `ba`.  The first complete
assignment the search builds (`A=ab`, `B=bb`) is inconsistent. -/
def cwCrash : Crossword :=
  ⟨[vA, vB], [['a','b'], ['b','b'], ['b','a']], abOverlaps⟩

/-- Unsatisfiable-after-propagation problem: `A` and `B` overlap at
`A[0] == B[1]`, words `ab`, `cd` — no word's first character matches any
word's second character. -/
def cwBad : Crossword :=
  ⟨[vA, vB], [['a','b'], ['c','d']], abOverlaps⟩

/-- Three variables `A — B — C` in a path: `A` has degree 1, `B`
degree 2, `C` degree 1; all domains are the single word `aa`. -/
def cwDeg : Crossword :=
  ⟨[vA, vB, vC], [['a','a']],
   [((vA, vB), (0, 0)), ((vB, vA), (0, 0)),
    ((vB, vC), (1, 1)), ((vC, vB), (1, 1))]⟩

/-- Two variables overlapping at `A[0] == B[0]` (every word supports
itself, so AC-3 removes nothing) sharing the single word `ab`: the
search must fail, and the failed frame leaks `A ↦ None` into the
assignment. -/
def cwLeak : Crossword :=
  ⟨[vA, vB], [['a','b']], [((vA, vB), (0, 0)), ((vB, vA), (0, 0))]⟩

/-! ### Association-list lemmas -/

theorem assocGet_assocSet_self {κ ν : Type} [DecidableEq κ]
    (l : List (κ × ν)) (k : κ) (v : ν) :
    assocGet (assocSet l k v) k = some v := by
  induction l with
  | nil => simp [assocGet, assocSet]
  | cons p ps ih =>
    by_cases h : p.1 = k
    · simp [assocGet, assocSet, h]
    · simp [assocGet, assocSet, h, ih]

theorem assocGet_assocSet_ne {κ ν : Type} [DecidableEq κ]
    (l : List (κ × ν)) (k k' : κ) (v : ν) (hne : k' ≠ k) :
    assocGet (assocSet l k v) k' = assocGet l k' := by
  induction l with
  | nil =>
    have hkk : ¬ (k = k') := fun h => hne h.symm
    simp [assocGet, assocSet, hkk]
  | cons p ps ih =>
    by_cases h : p.1 = k
    · have hkk : ¬ (k = k') := fun hh => hne hh.symm
      have hp : ¬ (p.1 = k') := by
        rw [h]
        exact hkk
      simp [assocSet, h, assocGet, hkk, hp]
    · simp [assocSet, h, assocGet, ih]

theorem assocGet_mem {κ ν : Type} [DecidableEq κ]
    {l : List (κ × ν)} {k : κ} {v : ν} (h : assocGet l k = some v) :
    (k, v) ∈ l := by
  induction l with
  | nil => simp [assocGet] at h
  | cons p ps ih =>
    by_cases hk : p.1 = k
    · simp [assocGet, hk] at h
      subst hk h
      simp
    · simp [assocGet, hk] at h
      exact List.mem_cons_of_mem _ (ih h)

theorem assocGet_mem_keys {κ ν : Type} [DecidableEq κ]
    {l : List (κ × ν)} {k : κ} {v : ν} (h : assocGet l k = some v) :
    k ∈ l.map Prod.fst := by
  have := assocGet_mem h
  exact List.mem_map.mpr ⟨(k, v), this, rfl⟩

theorem mem_assocGet_of_nodup {κ ν : Type} [DecidableEq κ]
    {l : List (κ × ν)} (hn : (l.map Prod.fst).Nodup)
    {k : κ} {v : ν} (h : (k, v) ∈ l) : assocGet l k = some v := by
  induction l with
  | nil => simp at h
  | cons p ps ih =>
    simp only [List.map_cons, List.nodup_cons] at hn
    rcases List.mem_cons.mp h with h | h
    · subst h
      simp [assocGet]
    · have hk : p.1 ≠ k := by
        intro hk
        exact hn.1 (hk ▸ List.mem_map.mpr ⟨(k, v), h, rfl⟩)
      simp [assocGet, hk, ih hn.2 h]

theorem assocGet_eq_none {κ ν : Type} [DecidableEq κ]
    {l : List (κ × ν)} {k : κ} (h : k ∉ l.map Prod.fst) :
    assocGet l k = none := by
  induction l with
  | nil => rfl
  | cons p ps ih =>
    simp only [List.map_cons, List.mem_cons] at h
    push_neg at h
    have h1 : ¬ (p.1 = k) := fun hh => h.1 hh.symm
    simp [assocGet, h1, ih h.2]

theorem assocSet_keys_of_mem {κ ν : Type} [DecidableEq κ]
    {l : List (κ × ν)} {k : κ} (hk : k ∈ l.map Prod.fst) (v : ν) :
    (assocSet l k v).map Prod.fst = l.map Prod.fst := by
  induction l with
  | nil => simp at hk
  | cons p ps ih =>
    by_cases h : p.1 = k
    · simp [assocSet, h]
    · simp only [List.map_cons, List.mem_cons] at hk
      rcases hk with hk | hk
      · exact absurd hk.symm h
      · simp [assocSet, h, ih hk]

theorem assocSet_keys_sub {κ ν : Type} [DecidableEq κ]
    (l : List (κ × ν)) (k : κ) (v : ν) :
    ∀ k1 ∈ (assocSet l k v).map Prod.fst, k1 = k ∨ k1 ∈ l.map Prod.fst := by
  induction l with
  | nil =>
    intro k1 h1
    simp [assocSet] at h1
    exact Or.inl h1
  | cons p ps ih =>
    intro k1 h1
    by_cases h : p.1 = k
    · simp only [assocSet, if_pos h, List.map_cons, List.mem_cons] at h1
      rcases h1 with h1 | h1
      · exact Or.inl h1
      · exact Or.inr (List.mem_cons_of_mem _ h1)
    · simp only [assocSet, if_neg h, List.map_cons, List.mem_cons] at h1
      rcases h1 with h1 | h1
      · exact Or.inr (List.mem_cons.mpr (Or.inl h1))
      · rcases ih k1 h1 with h2 | h2
        · exact Or.inl h2
        · exact Or.inr (List.mem_cons_of_mem _ h2)

theorem assocSet_keys_nodup {κ ν : Type} [DecidableEq κ]
    {l : List (κ × ν)} (hn : (l.map Prod.fst).Nodup) (k : κ) (v : ν) :
    ((assocSet l k v).map Prod.fst).Nodup := by
  induction l with
  | nil => simp [assocSet]
  | cons p ps ih =>
    simp only [List.map_cons, List.nodup_cons] at hn
    by_cases h : p.1 = k
    · simp only [assocSet, if_pos h, List.map_cons, List.nodup_cons]
      exact ⟨h ▸ hn.1, hn.2⟩
    · simp only [assocSet, if_neg h, List.map_cons, List.nodup_cons]
      refine ⟨fun hmem => ?_, ih hn.2⟩
      rcases assocSet_keys_sub ps k v p.1 hmem with h' | h'
      · exact h h'
      · exact hn.1 h'

theorem entry_assocGet_of_nodup {κ ν : Type} [DecidableEq κ]
    {l : List (κ × ν)} (hn : (l.map Prod.fst).Nodup)
    {p : κ × ν} (h : p ∈ l) : assocGet l p.1 = some p.2 :=
  mem_assocGet_of_nodup hn (by simpa using h)

theorem totalSize_assocSet {doms : Domains} {x : Variable} {dx : List Word}
    (h : assocGet doms x = some dx) (ws : List Word) :
    totalSize (assocSet doms x ws) + dx.length = totalSize doms + ws.length := by
  induction doms with
  | nil => simp [assocGet] at h
  | cons p ps ih =>
    by_cases hk : p.1 = x
    · simp only [assocGet, if_pos hk, Option.some.injEq] at h
      subst h
      simp only [assocSet, if_pos hk, totalSize, List.map_cons, List.sum_cons]
      omega
    · simp only [assocGet, if_neg hk] at h
      have := ih h
      simp only [assocSet, if_neg hk, totalSize, List.map_cons, List.sum_cons]
      simp only [totalSize] at this
      omega

theorem assocGet_map_self {l : List Variable} {k : Variable}
    (h : k ∈ l) (g : Variable → List Word) :
    assocGet (l.map (fun v => (v, g v))) k = some (g k) := by
  induction l with
  | nil => simp at h
  | cons a as ih =>
    by_cases hk : a = k
    · subst hk
      simp [assocGet]
    · rcases List.mem_cons.mp h with h' | h'
      · exact absurd h'.symm hk
      · simp [assocGet, hk, ih h']

/-! ### `revise` lemmas -/

theorem length_filter_lt {α : Type} (p : α → Bool) {l : List α} {a : α}
    (ha : a ∈ l) (hpa : p a = false) : (l.filter p).length < l.length := by
  induction l with
  | nil => simp at ha
  | cons b bs ih =>
    rcases List.mem_cons.mp ha with h | h
    · subst h
      rw [List.filter_cons, if_neg (by simp [hpa])]
      exact Nat.lt_succ_of_le (List.length_filter_le p bs)
    · by_cases hb : p b
      · rw [List.filter_cons, if_pos (by simp [hb])]
        simpa using Nat.succ_lt_succ (ih h)
      · rw [List.filter_cons, if_neg (by simp [hb])]
        exact Nat.lt_succ_of_lt (ih h)

theorem revise_none {cw : Crossword} {doms : Domains} {x y : Variable}
    (h : overlapLookup cw x y = none) : revise cw doms x y = (false, doms) := by
  simp [revise, h]

theorem revise_some_eq {cw : Crossword} {doms : Domains} {x y : Variable}
    {xi yi : Nat} (h : overlapLookup cw x y = some (xi, yi)) :
    revise cw doms x y =
      if ((domGet doms x).filter
          (fun wx => !(supported (domGet doms y) xi yi wx))).isEmpty then
        (false, doms)
      else
        (true, assocSet doms x
          ((domGet doms x).filter (supported (domGet doms y) xi yi))) := by
  unfold revise
  rw [h]

theorem revise_true_overlap {cw : Crossword} {doms : Domains} {x y : Variable}
    (h : (revise cw doms x y).1 = true) :
    ∃ xi yi, overlapLookup cw x y = some (xi, yi) := by
  rcases hov : overlapLookup cw x y with _ | ⟨xi, yi⟩
  · rw [revise_none hov] at h
    simp at h
  · exact ⟨xi, yi, rfl⟩

theorem revise_false_snd {cw : Crossword} {doms : Domains} {x y : Variable}
    (h : (revise cw doms x y).1 = false) : (revise cw doms x y).2 = doms := by
  rcases hov : overlapLookup cw x y with _ | ⟨xi, yi⟩
  · rw [revise_none hov]
  · rw [revise_some_eq hov] at h ⊢
    by_cases hemp :
        ((domGet doms x).filter
          (fun wx => !(supported (domGet doms y) xi yi wx))).isEmpty
    · rw [if_pos hemp]
    · rw [if_neg hemp] at h
      simp at h

theorem revise_fst_true_iff {cw : Crossword} {doms : Domains} {x y : Variable}
    {xi yi : Nat} (h : overlapLookup cw x y = some (xi, yi)) :
    (revise cw doms x y).1 = true ↔
      ∃ wx ∈ domGet doms x, supported (domGet doms y) xi yi wx = false := by
  rw [revise_some_eq h]
  by_cases hemp :
      ((domGet doms x).filter
        (fun wx => !(supported (domGet doms y) xi yi wx))).isEmpty
  · rw [if_pos hemp]
    constructor
    · intro hh
      exact absurd hh (by simp)
    · rintro ⟨wx, hwx, hsup⟩
      have := List.filter_eq_nil_iff.mp (List.isEmpty_iff.mp hemp) wx hwx
      simp [hsup] at this
  · rw [if_neg hemp]
    constructor
    · intro _
      rcases List.exists_mem_of_ne_nil _
          (fun hnil => hemp (List.isEmpty_iff.mpr hnil)) with ⟨wx, hwx⟩
      rcases List.mem_filter.mp hwx with ⟨hmem, hp⟩
      refine ⟨wx, hmem, ?_⟩
      simpa using hp
    · intro _
      rfl

theorem revise_true_snd {cw : Crossword} {doms : Domains} {x y : Variable}
    {xi yi : Nat} (h : overlapLookup cw x y = some (xi, yi))
    (ht : (revise cw doms x y).1 = true) :
    (revise cw doms x y).2 =
      assocSet doms x ((domGet doms x).filter (supported (domGet doms y) xi yi)) := by
  rcases (revise_fst_true_iff h).mp ht with ⟨wx, hwx, hsup⟩
  rw [revise_some_eq h]
  by_cases hemp :
      ((domGet doms x).filter
        (fun wx => !(supported (domGet doms y) xi yi wx))).isEmpty
  · exfalso
    have := List.filter_eq_nil_iff.mp (List.isEmpty_iff.mp hemp) wx hwx
    simp [hsup] at this
  · rw [if_neg hemp]

theorem revise_domGet_self {cw : Crossword} {doms : Domains} {x y : Variable}
    {xi yi : Nat} (h : overlapLookup cw x y = some (xi, yi)) :
    domGet (revise cw doms x y).2 x =
      (domGet doms x).filter (supported (domGet doms y) xi yi) := by
  rcases hf : (revise cw doms x y).1 with _ | _
  · rw [revise_false_snd hf]
    have hall : ∀ wx ∈ domGet doms x, supported (domGet doms y) xi yi wx = true := by
      intro wx hwx
      by_contra hno
      have hfalse : supported (domGet doms y) xi yi wx = false := by
        simpa using hno
      exact absurd ((revise_fst_true_iff h).mpr ⟨wx, hwx, hfalse⟩)
        (by simp [hf])
    exact ((List.filter_eq_self).mpr hall).symm
  · rw [revise_true_snd h hf]
    unfold domGet
    rw [assocGet_assocSet_self]
    rfl

theorem revise_domGet_ne {cw : Crossword} {doms : Domains} {x y z : Variable}
    (hz : z ≠ x) : domGet (revise cw doms x y).2 z = domGet doms z := by
  rcases hf : (revise cw doms x y).1 with _ | _
  · rw [revise_false_snd hf]
  · rcases revise_true_overlap hf with ⟨xi, yi, hov⟩
    rw [revise_true_snd hov hf]
    unfold domGet
    rw [assocGet_assocSet_ne _ _ _ _ hz]

theorem domGet_assocGet {doms : Domains} {x : Variable} {w : Word}
    (h : w ∈ domGet doms x) : assocGet doms x = some (domGet doms x) := by
  unfold domGet at h ⊢
  rcases hg : assocGet doms x with _ | dx
  · simp [hg] at h
  · simp [hg]

theorem revise_totalSize {cw : Crossword} {doms : Domains} {x y : Variable}
    (h : (revise cw doms x y).1 = true) :
    totalSize (revise cw doms x y).2 < totalSize doms := by
  rcases revise_true_overlap h with ⟨xi, yi, hov⟩
  rcases (revise_fst_true_iff hov).mp h with ⟨wx, hwx, hsup⟩
  have hdx := domGet_assocGet hwx
  have hlt : ((domGet doms x).filter (supported (domGet doms y) xi yi)).length
      < (domGet doms x).length :=
    length_filter_lt _ hwx hsup
  rw [revise_true_snd hov h]
  have := totalSize_assocSet hdx
      ((domGet doms x).filter (supported (domGet doms y) xi yi))
  omega

theorem revise_keys {cw : Crossword} {doms : Domains} {x y : Variable} :
    (revise cw doms x y).2.map Prod.fst = doms.map Prod.fst := by
  rcases hf : (revise cw doms x y).1 with _ | _
  · rw [revise_false_snd hf]
  · rcases revise_true_overlap hf with ⟨xi, yi, hov⟩
    rcases (revise_fst_true_iff hov).mp hf with ⟨wx, hwx, hsup⟩
    rw [revise_true_snd hov hf]
    exact assocSet_keys_of_mem (assocGet_mem_keys (domGet_assocGet hwx)) _

theorem revise_subset {cw : Crossword} {doms : Domains} {x y v : Variable}
    {w : Word} (h : w ∈ domGet (revise cw doms x y).2 v) : w ∈ domGet doms v := by
  by_cases hv : v = x
  · subst hv
    rcases hf : (revise cw doms v y).1 with _ | _
    · rwa [revise_false_snd hf] at h
    · rcases revise_true_overlap hf with ⟨xi, yi, hov⟩
      rw [revise_domGet_self hov] at h
      exact (List.mem_filter.mp h).1
  · rwa [revise_domGet_ne hv] at h

/-! ### Well-formedness consequences -/

theorem overlap_facts {cw : Crossword} (hwf : WF cw) {x y : Variable}
    {xi yi : Nat} (h : overlapLookup cw x y = some (xi, yi)) :
    x ∈ cw.vars ∧ y ∈ cw.vars ∧ x ≠ y ∧
      overlapLookup cw y x = some (yi, xi) := by
  have hmem : ((x, y), (xi, yi)) ∈ cw.overlapsList := assocGet_mem h
  obtain ⟨hx, hy, hne, hsym, _, _⟩ := hwf.2.2.2 _ hmem
  exact ⟨hx, hy, hne, mem_assocGet_of_nodup hwf.2.1 hsym⟩

theorem mem_neighbors_of_overlap {cw : Crossword} (hwf : WF cw)
    {u x : Variable} {o : Nat × Nat} (h : overlapLookup cw u x = some o) :
    u ∈ neighbors cw x := by
  obtain ⟨hu, hx, hne, hsym⟩ := overlap_facts hwf h
  unfold neighbors
  refine List.mem_filter.mpr ⟨hu, ?_⟩
  simp [bne_iff_ne, hne, hsym]

theorem mem_vars_of_neighbors {cw : Crossword} {u x : Variable}
    (h : u ∈ neighbors cw x) : u ∈ cw.vars :=
  (List.mem_filter.mp h).1

/-! ### AC-3 lemmas -/

theorem ac3Step_isSome (cw : Crossword) :
    ∀ fuel doms arcs,
      arcs.length + totalSize doms * cw.vars.length < fuel →
      (ac3Step cw fuel doms arcs).isSome := by
  intro fuel
  induction fuel with
  | zero =>
    intro doms arcs h
    omega
  | succ f ih =>
    intro doms arcs h
    match arcs with
    | [] => simp [ac3Step]
    | (x, y) :: rest =>
      simp only [ac3Step]
      by_cases hr : (revise cw doms x y).1 = true
      · rw [if_pos hr]
        by_cases hemp : (domGet (revise cw doms x y).2 x).isEmpty
        · rw [if_pos hemp]
          simp
        · rw [if_neg hemp]
          apply ih
          have hts : totalSize (revise cw doms x y).2 + 1 ≤ totalSize doms :=
            revise_totalSize hr
          have hlen :
              (rest ++ ((neighbors cw x).filter
                (fun z => !(decide ((z, x) ∈ rest)))).map (fun z => (z, x))).length
              ≤ rest.length + cw.vars.length := by
            rw [List.length_append, List.length_map]
            have h1 := List.length_filter_le
              (fun z => !(decide ((z, x) ∈ rest))) (neighbors cw x)
            have h2 : (neighbors cw x).length ≤ cw.vars.length := by
              unfold neighbors
              exact List.length_filter_le _ _
            omega
          have hmul : totalSize (revise cw doms x y).2 * cw.vars.length
              + cw.vars.length ≤ totalSize doms * cw.vars.length := by
            have := Nat.mul_le_mul_right cw.vars.length hts
            rwa [Nat.succ_mul] at this
          simp only [List.length_cons] at h
          generalize totalSize (revise cw doms x y).2 * cw.vars.length = A at hmul ⊢
          generalize totalSize doms * cw.vars.length = B at hmul h
          omega
      · rw [if_neg hr]
        apply ih
        simp only [List.length_cons] at h
        generalize totalSize doms * cw.vars.length = B at h ⊢
        omega

theorem ac3Step_keys (cw : Crossword) :
    ∀ fuel doms arcs b d, ac3Step cw fuel doms arcs = some (b, d) →
      d.map Prod.fst = doms.map Prod.fst := by
  intro fuel
  induction fuel with
  | zero =>
    intro doms arcs b d h
    simp [ac3Step] at h
  | succ f ih =>
    intro doms arcs b d h
    match arcs with
    | [] =>
      simp [ac3Step] at h
      rw [h.2]
    | (x, y) :: rest =>
      simp only [ac3Step] at h
      by_cases hr : (revise cw doms x y).1 = true
      · rw [if_pos hr] at h
        by_cases hemp : (domGet (revise cw doms x y).2 x).isEmpty
        · rw [if_pos hemp] at h
          simp only [Option.some.injEq, Prod.mk.injEq] at h
          rw [← h.2]
          exact revise_keys
        · rw [if_neg hemp] at h
          rw [ih _ _ _ _ h]
          exact revise_keys
      · rw [if_neg hr] at h
        exact ih _ _ _ _ h

theorem ac3Step_arcOK {cw : Crossword} (hwf : WF cw) :
    ∀ fuel doms arcs d,
      (∀ x y : Variable, (x, y) ∉ arcs → arcOK cw doms x y) →
      ac3Step cw fuel doms arcs = some (true, d) →
      ∀ x y : Variable, arcOK cw d x y := by
  intro fuel
  induction fuel with
  | zero =>
    intro doms arcs d hinv h
    simp [ac3Step] at h
  | succ f ih =>
    intro doms arcs d hinv h
    match arcs with
    | [] =>
      simp [ac3Step] at h
      intro x y
      rw [← h]
      exact hinv x y (List.not_mem_nil _)
    | (x, y) :: rest =>
      simp only [ac3Step] at h
      by_cases hr : (revise cw doms x y).1 = true
      · rw [if_pos hr] at h
        by_cases hemp : (domGet (revise cw doms x y).2 x).isEmpty
        · rw [if_pos hemp] at h
          simp at h
        · rw [if_neg hemp] at h
          refine ih _ _ _ ?_ h
          intro u v huv xi yi hov wu hwu
          by_cases hvx : v = x
          · subst hvx
            exfalso
            have hun : u ∈ neighbors cw v := mem_neighbors_of_overlap hwf hov
            by_cases hin : (u, v) ∈ rest
            · exact huv (List.mem_append.mpr (Or.inl hin))
            · refine huv (List.mem_append.mpr (Or.inr ?_))
              refine List.mem_map.mpr ⟨u, List.mem_filter.mpr ⟨hun, ?_⟩, rfl⟩
              simp [hin]
          · have hdv : domGet (revise cw doms x y).2 v = domGet doms v :=
              revise_domGet_ne hvx
            rw [hdv]
            by_cases hxy : (u, v) = (x, y)
            · have hux : u = x := congrArg Prod.fst hxy
              have hvy : v = y := congrArg Prod.snd hxy
              subst hux hvy
              rw [revise_domGet_self hov] at hwu
              exact (List.mem_filter.mp hwu).2
            · have hwu' : wu ∈ domGet doms u := revise_subset hwu
              have hnm : (u, v) ∉ (x, y) :: rest := by
                intro hmem
                rcases List.mem_cons.mp hmem with hh | hh
                · exact hxy hh
                · exact huv (List.mem_append.mpr (Or.inl hh))
              exact hinv u v hnm xi yi hov wu hwu'
      · rw [if_neg hr] at h
        refine ih _ _ _ ?_ h
        intro u v huv xi yi hov wu hwu
        by_cases hxy : (u, v) = (x, y)
        · have hux : u = x := congrArg Prod.fst hxy
          have hvy : v = y := congrArg Prod.snd hxy
          subst hux hvy
          by_contra hno
          have hfalse : supported (domGet doms v) xi yi wu = false := by
            simpa using hno
          exact absurd ((revise_fst_true_iff hov).mpr ⟨wu, hwu, hfalse⟩) hr
        · have hnm : (u, v) ∉ (x, y) :: rest := by
            intro hmem
            rcases List.mem_cons.mp hmem with hh | hh
            · exact hxy hh
            · exact huv hh
          exact hinv u v hnm xi yi hov wu hwu

theorem ac3Step_sat {cw : Crossword} {f : Variable → Word}
    (ha : arcSat cw f) :
    ∀ fuel doms arcs b d,
      (∀ v ∈ cw.vars, f v ∈ domGet doms v) →
      (∀ a ∈ arcs, a.1 ∈ cw.vars ∧ a.2 ∈ cw.vars) →
      ac3Step cw fuel doms arcs = some (b, d) → b = true := by
  intro fuel
  induction fuel with
  | zero =>
    intro doms arcs b d hmem harcs h
    simp [ac3Step] at h
  | succ fl ih =>
    intro doms arcs b d hmem harcs h
    match arcs with
    | [] =>
      simp [ac3Step] at h
      exact h.1
    | (x, y) :: rest =>
      obtain ⟨hxv, hyv⟩ := harcs (x, y) (List.mem_cons_self _ _)
      simp only [ac3Step] at h
      by_cases hr : (revise cw doms x y).1 = true
      · rcases revise_true_overlap hr with ⟨xi, yi, hov⟩
        have hfx : f x ∈ domGet (revise cw doms x y).2 x := by
          rw [revise_domGet_self hov]
          refine List.mem_filter.mpr ⟨hmem x hxv, ?_⟩
          unfold supported
          refine List.any_eq_true.mpr ⟨f y, hmem y hyv, ?_⟩
          exact beq_iff_eq.mpr (ha x y xi yi hov hxv hyv)
        rw [if_pos hr] at h
        by_cases hemp : (domGet (revise cw doms x y).2 x).isEmpty
        · exfalso
          rw [List.isEmpty_iff.mp hemp] at hfx
          exact List.not_mem_nil _ hfx
        · rw [if_neg hemp] at h
          refine ih _ _ _ _ ?_ ?_ h
          · intro v hv
            by_cases hvx : v = x
            · subst hvx
              exact hfx
            · rw [revise_domGet_ne hvx]
              exact hmem v hv
          · intro a hamem
            rcases List.mem_append.mp hamem with hh | hh
            · exact harcs a (List.mem_cons_of_mem _ hh)
            · rcases List.mem_map.mp hh with ⟨z, hz, rfl⟩
              exact ⟨mem_vars_of_neighbors (List.mem_filter.mp hz).1, hxv⟩
      · rw [if_neg hr] at h
        refine ih _ _ _ _ hmem ?_ h
        intro a hamem
        exact harcs a (List.mem_cons_of_mem _ hamem)

theorem ac3Step_fixed {cw : Crossword} {doms : Domains}
    (hOK : ∀ x y : Variable, arcOK cw doms x y) :
    ∀ arcs fuel, arcs.length < fuel →
      ac3Step cw fuel doms arcs = some (true, doms) := by
  intro arcs
  induction arcs with
  | nil =>
    intro fuel hf
    match fuel, hf with
    | fl + 1, _ => simp [ac3Step]
  | cons a rest ih =>
    intro fuel hf
    match fuel, hf with
    | fl + 1, hf =>
      obtain ⟨x, y⟩ := a
      have hfalse : ¬ ((revise cw doms x y).1 = true) := by
        intro hr
        rcases revise_true_overlap hr with ⟨xi, yi, hov⟩
        rcases (revise_fst_true_iff hov).mp hr with ⟨wx, hwx, hsup⟩
        have hOKx := hOK x y xi yi hov wx hwx
        rw [hOKx] at hsup
        simp at hsup
      simp only [ac3Step]
      rw [if_neg hfalse]
      apply ih
      simpa using hf

theorem ac3_eq_step (cw : Crossword) (doms : Domains)
    (arcs : List (Variable × Variable)) :
    ∃ b d, ac3Step cw (ac3FuelBound cw doms arcs) doms arcs = some (b, d) ∧
      ac3 cw doms arcs = (b, d) := by
  have h := ac3Step_isSome cw (ac3FuelBound cw doms arcs) doms arcs
    (Nat.lt_succ_self _)
  rcases Option.isSome_iff_exists.mp h with ⟨⟨b, d⟩, hbd⟩
  refine ⟨b, d, hbd, ?_⟩
  unfold ac3
  rw [hbd]
  rfl

theorem domGet_enforce_init {cw : Crossword} {v : Variable} (hv : v ∈ cw.vars) :
    domGet (enforce_node_consistency (initDomains cw)) v =
      cw.words.filter (fun w => w.length == v.length) := by
  unfold enforce_node_consistency initDomains domGet
  rw [List.map_map]
  have h := assocGet_map_self hv
    (fun u => cw.words.filter (fun w => w.length == u.length))
  rw [show ((fun p : Variable × List Word =>
        (p.1, p.2.filter (fun w => w.length == p.1.length))) ∘
      (fun u => (u, cw.words))) =
      (fun u => (u, cw.words.filter (fun w => w.length == u.length))) from rfl]
  rw [h]
  rfl

/-! ### Claim theorems about `revise` and `ac3` -/

/-- C6: if `ac3()` seeded with the full arc list returns `True`, then for
every overlapping ordered pair `(x, y)` and every word left in `x`'s
domain there is a word in `y`'s domain agreeing on the overlap
characters. -/
theorem c6_ac3_arc_consistency {cw : Crossword} (hwf : WF cw) (doms : Domains)
    (h : (ac3 cw doms (initialArcs cw)).1 = true) :
    ∀ x y : Variable, ∀ xi yi : Nat, overlapLookup cw x y = some (xi, yi) →
      ∀ wx ∈ domGet (ac3 cw doms (initialArcs cw)).2 x,
        ∃ wy ∈ domGet (ac3 cw doms (initialArcs cw)).2 y,
          wx.getD xi ' ' = wy.getD yi ' ' := by
  obtain ⟨b, d, hstep, heq⟩ := ac3_eq_step cw doms (initialArcs cw)
  rw [heq] at h ⊢
  have hb : b = true := h
  subst hb
  have hall : ∀ x y : Variable, arcOK cw d x y := by
    refine ac3Step_arcOK hwf _ _ _ _ ?_ hstep
    intro x y hmem xi yi hov wx hwx
    exact absurd
      (List.mem_map.mpr ⟨((x, y), (xi, yi)), assocGet_mem hov, rfl⟩) hmem
  intro x y xi yi hov wx hwx
  have hOK := hall x y xi yi hov wx hwx
  unfold supported at hOK
  rcases List.any_eq_true.mp hOK with ⟨wy, hwy, hbeq⟩
  exact ⟨wy, hwy, beq_iff_eq.mp hbeq⟩

/-- C6 witness: on `cwOrder`, AC-3 succeeds and the word `cc` kept for
`A` has a partner in `B`'s pruned domain. -/
theorem c6_witness :
    ∃ wy ∈ domGet (ac3 cwOrder (enforce_node_consistency (initDomains cwOrder))
        (initialArcs cwOrder)).2 vB,
      List.getD ['c','c'] 0 ' ' = wy.getD 1 ' ' :=
  c6_ac3_arc_consistency (by decide)
    (enforce_node_consistency (initDomains cwOrder)) (by decide)
    vA vB 0 1 (by decide) ['c','c'] (by decide)

/-- C7: if the solver's `ac3()` run (after node consistency) reports
failure, then no word choice satisfies the node constraints together
with all overlap constraints. -/
theorem c7_ac3_failure_unsat {cw : Crossword} (hwf : WF cw)
    (h : (ac3 cw (enforce_node_consistency (initDomains cw))
        (initialArcs cw)).1 = false) :
    ¬ ∃ f : Variable → Word, nodeOK cw f ∧ arcSat cw f := by
  rintro ⟨f, hn, ha⟩
  obtain ⟨b, d, hstep, heq⟩ :=
    ac3_eq_step cw (enforce_node_consistency (initDomains cw)) (initialArcs cw)
  rw [heq] at h
  have hb : b = false := h
  have htrue : b = true := by
    refine ac3Step_sat ha _ _ _ _ _ ?_ ?_ hstep
    · intro v hv
      rw [domGet_enforce_init hv]
      exact List.mem_filter.mpr ⟨(hn v hv).1, by simp [(hn v hv).2]⟩
    · intro a hamem
      rcases List.mem_map.mp hamem with ⟨e, he, rfl⟩
      obtain ⟨h1, h2, _⟩ := hwf.2.2.2 e he
      exact ⟨h1, h2⟩
  rw [hb] at htrue
  exact absurd htrue (by simp)

/-- C7 witness: `cwBad` (no compatible word pair) makes `ac3` fail, and
indeed no satisfying word choice exists. -/
theorem c7_witness :
    ¬ ∃ f : Variable → Word, nodeOK cwBad f ∧ arcSat cwBad f :=
  c7_ac3_failure_unsat (by decide) (by decide)

/-- C9 (amended): when the first full `ac3` run returns `True`, a second
full run removes nothing — it returns `True` with the same domains. -/
theorem c9_ac3_idempotent_on_success {cw : Crossword} (hwf : WF cw)
    (doms : Domains)
    (h : (ac3 cw doms (initialArcs cw)).1 = true) :
    ac3 cw (ac3 cw doms (initialArcs cw)).2 (initialArcs cw) =
      (true, (ac3 cw doms (initialArcs cw)).2) := by
  obtain ⟨b, d, hstep, heq⟩ := ac3_eq_step cw doms (initialArcs cw)
  rw [heq] at h ⊢
  have hb : b = true := h
  subst hb
  have hOK : ∀ x y : Variable, arcOK cw d x y := by
    refine ac3Step_arcOK hwf _ _ _ _ ?_ hstep
    intro x y hmem xi yi hov wx hwx
    exact absurd
      (List.mem_map.mpr ⟨((x, y), (xi, yi)), assocGet_mem hov, rfl⟩) hmem
  show ac3 cw d (initialArcs cw) = (true, d)
  obtain ⟨b2, d2, hstep2, heq2⟩ := ac3_eq_step cw d (initialArcs cw)
  rw [heq2]
  have hfix := ac3Step_fixed hOK (initialArcs cw)
    (ac3FuelBound cw d (initialArcs cw))
    (Nat.lt_succ_of_le (Nat.le_add_right _ _))
  rw [hfix] at hstep2
  simp only [Option.some.injEq, Prod.mk.injEq] at hstep2
  rw [← hstep2.1, ← hstep2.2]

/-- C9 witness: on `cwOrder` the first run succeeds and the second run
is the identity on its output. -/
theorem c9_witness :
    ac3 cwOrder (ac3 cwOrder (enforce_node_consistency (initDomains cwOrder))
        (initialArcs cwOrder)).2 (initialArcs cwOrder) =
      (true, (ac3 cwOrder (enforce_node_consistency (initDomains cwOrder))
        (initialArcs cwOrder)).2) :=
  c9_ac3_idempotent_on_success (by decide)
    (enforce_node_consistency (initDomains cwOrder)) (by decide)

/-- C9 counterexample: on `cwBad` the first full `ac3` run fails after
emptying `A`'s domain and stops; a second run then also empties `B`'s
domain, so running `ac3` twice does not produce the same domain mapping
as running it once. -/
theorem c9_counterexample :
    (ac3 cwBad (ac3 cwBad (enforce_node_consistency (initDomains cwBad))
        (initialArcs cwBad)).2 (initialArcs cwBad)).2 ≠
      (ac3 cwBad (enforce_node_consistency (initDomains cwBad))
        (initialArcs cwBad)).2 := by
  decide

/-- C8: with an overlap record, `revise(x, y)` keeps exactly the
supported words of `x`'s domain, changes no other domain, and reports a
revision iff some word of `x`'s domain has no support in `y`'s current
domain; without an overlap record it is a no-op returning `False`. -/
theorem c8_revise_exact (cw : Crossword) (doms : Domains) (x y : Variable) :
    (overlapLookup cw x y = none → revise cw doms x y = (false, doms)) ∧
    (∀ xi yi : Nat, overlapLookup cw x y = some (xi, yi) →
      domGet (revise cw doms x y).2 x =
        (domGet doms x).filter (fun wx =>
          (domGet doms y).any (fun wy => wx.getD xi ' ' == wy.getD yi ' ')) ∧
      (∀ z : Variable, z ≠ x → domGet (revise cw doms x y).2 z = domGet doms z) ∧
      ((revise cw doms x y).1 = true ↔
        ∃ wx ∈ domGet doms x, ∀ wy ∈ domGet doms y,
          ¬ (wx.getD xi ' ' = wy.getD yi ' '))) := by
  refine ⟨fun h => revise_none h, fun xi yi hov => ⟨?_, ?_, ?_⟩⟩
  · exact revise_domGet_self hov
  · intro z hz
    exact revise_domGet_ne hz
  · rw [revise_fst_true_iff hov]
    constructor
    · rintro ⟨wx, hwx, hsup⟩
      refine ⟨wx, hwx, ?_⟩
      intro wy hwy heq
      have hs : supported (domGet doms y) xi yi wx = true :=
        List.any_eq_true.mpr ⟨wy, hwy, beq_iff_eq.mpr heq⟩
      rw [hs] at hsup
      exact absurd hsup (by simp)
    · rintro ⟨wx, hwx, hall⟩
      refine ⟨wx, hwx, ?_⟩
      rw [← Bool.not_eq_true]
      intro hsup
      rcases List.any_eq_true.mp hsup with ⟨wy, hwy, hbeq⟩
      exact hall wy hwy (beq_iff_eq.mp hbeq)

/-- C8 witness: on `cwOrder`'s node-consistent domains, `revise(A, B)`
keeps exactly the supported words of `A`. -/
theorem c8_witness :
    domGet (revise cwOrder (enforce_node_consistency (initDomains cwOrder))
        vA vB).2 vA =
      (domGet (enforce_node_consistency (initDomains cwOrder)) vA).filter
        (fun wx => (domGet (enforce_node_consistency (initDomains cwOrder))
          vB).any (fun wy => wx.getD 0 ' ' == wy.getD 1 ' ')) :=
  ((c8_revise_exact cwOrder (enforce_node_consistency (initDomains cwOrder))
    vA vB).2 0 1 (by decide)).1

/-! ### Variable selection -/

theorem selectLoop_eq_minLoop (asg : Assignment) :
    ∀ (l : List (Variable × List Word)) (acc : Option (Nat × Variable)),
      selectLoop asg l acc =
        minLoop (l.filter (fun p => (dictGet asg p.1).isNone)) acc := by
  intro l
  induction l with
  | nil =>
    intro acc
    rfl
  | cons p ps ih =>
    intro acc
    rcases hd : dictGet asg p.1 with _ | w
    · rw [List.filter_cons, if_pos (by simp [hd])]
      simp only [selectLoop, hd]
      rw [if_neg (by simp)]
      cases acc with
      | none =>
        simp only [minLoop]
        exact ih _
      | some mu =>
        obtain ⟨m, u⟩ := mu
        simp only [minLoop]
        by_cases hlt : p.2.length < m
        · rw [if_pos hlt, if_pos hlt]
          exact ih _
        · rw [if_neg hlt, if_neg hlt]
          exact ih _
    · rw [List.filter_cons, if_neg (by simp [hd])]
      simp only [selectLoop, hd]
      rw [if_pos (by simp)]
      exact ih _

theorem minLoop_spec :
    ∀ (ps : List (Variable × List Word)) (m0 : Nat) (v0 : Variable),
      ∃ m v, minLoop ps (some (m0, v0)) = some (m, v) ∧
        m ≤ m0 ∧ (∀ q ∈ ps, m ≤ q.2.length) ∧
        ((m = m0 ∧ v = v0) ∨
          ∃ l1 p l2, ps = l1 ++ p :: l2 ∧ v = p.1 ∧ m = p.2.length ∧
            m < m0 ∧ ∀ q ∈ l1, m < q.2.length) := by
  intro ps
  induction ps with
  | nil =>
    intro m0 v0
    exact ⟨m0, v0, rfl, le_refl _, by simp, Or.inl ⟨rfl, rfl⟩⟩
  | cons p ps ih =>
    intro m0 v0
    by_cases hlt : p.2.length < m0
    · obtain ⟨m, v, heq, hle, hmin, hcase⟩ := ih p.2.length p.1
      refine ⟨m, v, ?_, by omega, ?_, ?_⟩
      · simp only [minLoop]
        rw [if_pos hlt]
        exact heq
      · intro q hq
        rcases List.mem_cons.mp hq with h | h
        · rw [h]
          exact hle
        · exact hmin q h
      · rcases hcase with ⟨hm, hv⟩ | ⟨l1, pp, l2, hps, hv, hm, hlt2, hfirst⟩
        · right
          exact ⟨[], p, ps, by simp, by rw [hv], by rw [hm], by omega, by simp⟩
        · right
          refine ⟨p :: l1, pp, l2, by rw [hps]; rfl, hv, hm, by omega, ?_⟩
          intro q hq
          rcases List.mem_cons.mp hq with h | h
          · rw [h]
            exact hlt2
          · exact hfirst q h
    · obtain ⟨m, v, heq, hle, hmin, hcase⟩ := ih m0 v0
      refine ⟨m, v, ?_, hle, ?_, ?_⟩
      · simp only [minLoop]
        rw [if_neg hlt]
        exact heq
      · intro q hq
        rcases List.mem_cons.mp hq with h | h
        · rw [h]
          omega
        · exact hmin q h
      · rcases hcase with ⟨hm, hv⟩ | ⟨l1, pp, l2, hps, hv, hm, hlt2, hfirst⟩
        · exact Or.inl ⟨hm, hv⟩
        · right
          refine ⟨p :: l1, pp, l2, by rw [hps]; rfl, hv, hm, hlt2, ?_⟩
          intro q hq
          rcases List.mem_cons.mp hq with h | h
          · rw [h]
            omega
          · exact hfirst q h

theorem minLoop_source :
    ∀ (ps : List (Variable × List Word)) (acc : Option (Nat × Variable))
      (m : Nat) (v : Variable),
      minLoop ps acc = some (m, v) →
      acc = some (m, v) ∨ ∃ p ∈ ps, p.1 = v ∧ p.2.length = m := by
  intro ps
  induction ps with
  | nil =>
    intro acc m v h
    exact Or.inl h
  | cons p ps ih =>
    intro acc m v h
    cases acc with
    | none =>
      simp only [minLoop] at h
      rcases ih _ _ _ h with h' | ⟨q, hq, hh⟩
      · right
        have hinj := Option.some.inj h'
        exact ⟨p, List.mem_cons_self _ _,
          congrArg Prod.snd hinj, congrArg Prod.fst hinj⟩
      · exact Or.inr ⟨q, List.mem_cons_of_mem _ hq, hh⟩
    | some mu =>
      obtain ⟨m0, v0⟩ := mu
      simp only [minLoop] at h
      by_cases hlt : p.2.length < m0
      · rw [if_pos hlt] at h
        rcases ih _ _ _ h with h' | ⟨q, hq, hh⟩
        · right
          have hinj := Option.some.inj h'
          exact ⟨p, List.mem_cons_self _ _,
            congrArg Prod.snd hinj, congrArg Prod.fst hinj⟩
        · exact Or.inr ⟨q, List.mem_cons_of_mem _ hq, hh⟩
      · rw [if_neg hlt] at h
        rcases ih _ _ _ h with h' | ⟨q, hq, hh⟩
        · exact Or.inl h'
        · exact Or.inr ⟨q, List.mem_cons_of_mem _ hq, hh⟩

theorem select_some_unassigned {doms : Domains} {asg : Assignment}
    {v : Variable} (h : select_unassigned_variable doms asg = some v) :
    ∃ p ∈ doms, p.1 = v ∧ dictGet asg v = none := by
  unfold select_unassigned_variable at h
  rw [selectLoop_eq_minLoop] at h
  rcases hm : minLoop (doms.filter fun q => (dictGet asg q.1).isNone) none
    with _ | mv
  · rw [hm] at h
    simp at h
  · rw [hm] at h
    obtain ⟨m0, v0⟩ := mv
    simp at h
    rcases minLoop_source _ _ _ _ hm with h' | ⟨p, hp, hpv, _⟩
    · exact absurd h' (by simp)
    · have hmem := List.mem_filter.mp hp
      refine ⟨p, hmem.1, by rw [hpv, h], ?_⟩
      rw [← h, ← hpv]
      exact Option.isNone_iff_eq_none.mp hmem.2

/-- C4 (amended): whenever some variable of the domain mapping is
unassigned, `select_unassigned_variable` returns the first variable in
the mapping's iteration order whose domain size is minimal among the
unassigned variables (strict-minimum tracking keeps the earliest
minimum; there is no degree tie-break). -/
theorem c4_select_first_min {doms : Domains} {asg : Assignment}
    (h : ∃ p ∈ doms, dictGet asg p.1 = none) :
    ∃ p l1 l2,
      select_unassigned_variable doms asg = some p.1 ∧
      doms.filter (fun q => (dictGet asg q.1).isNone) = l1 ++ p :: l2 ∧
      (∀ q ∈ l1, p.2.length < q.2.length) ∧
      (∀ q ∈ l1 ++ p :: l2, p.2.length ≤ q.2.length) := by
  rcases h with ⟨p0, hp0, hnone⟩
  have hp0f : p0 ∈ doms.filter (fun q => (dictGet asg q.1).isNone) :=
    List.mem_filter.mpr ⟨hp0, by simp [hnone]⟩
  rcases hf : doms.filter (fun q => (dictGet asg q.1).isNone) with _ | ⟨c, cs⟩
  · rw [hf] at hp0f
    exact absurd hp0f (List.not_mem_nil _)
  · unfold select_unassigned_variable
    rw [selectLoop_eq_minLoop, hf]
    obtain ⟨m, v, heq, hle, hmin, hcase⟩ := minLoop_spec cs c.2.length c.1
    simp only [minLoop]
    rw [heq]
    rcases hcase with ⟨hm, hv⟩ | ⟨l1, pp, l2, hps, hv, hm, hlt2, hfirst⟩
    · refine ⟨c, [], cs, by simp [hv], by simp, by simp, ?_⟩
      intro q hq
      rcases List.mem_cons.mp (by simpa using hq) with hh | hh
      · rw [hh]
      · have := hmin q hh
        omega
    · refine ⟨pp, c :: l1, l2, by simp [hv], by rw [hps]; rfl, ?_, ?_⟩
      · intro q hq
        rcases List.mem_cons.mp hq with hh | hh
        · rw [hh, ← hm]
          exact hlt2
        · rw [← hm]
          exact hfirst q hh
      · intro q hq
        rw [List.cons_append] at hq
        rcases List.mem_cons.mp hq with hh | hh
        · rw [hh, ← hm]
          exact hle
        · rw [← hps] at hh
          rw [← hm]
          exact hmin q hh

/-- C4 witness: a one-variable mapping with an empty assignment makes
the hypothesis of the amended claim concrete. -/
theorem c4_witness :
    ∃ p l1 l2,
      select_unassigned_variable [(vA, [['a','a']])] [] = some p.1 ∧
      ([(vA, [['a','a']])] : Domains).filter
        (fun q => (dictGet [] q.1).isNone) = l1 ++ p :: l2 ∧
      (∀ q ∈ l1, p.2.length < q.2.length) ∧
      (∀ q ∈ l1 ++ p :: l2, p.2.length ≤ q.2.length) :=
  c4_select_first_min ⟨(vA, [['a','a']]), by simp, rfl⟩

/-- C4 counterexample: on `cwDeg` with the empty assignment all three
variables are unassigned and tied on domain size 1, yet the selector
returns `A` (degree 1) although `B` (degree 2) is also tied — there is
no highest-degree tie-break. -/
theorem c4_counterexample :
    select_unassigned_variable (solveDoms cwDeg) [] = some vA ∧
    vB ∈ (solveDoms cwDeg).map Prod.fst ∧
    dictGet ([] : Assignment) vB = none ∧
    (domGet (solveDoms cwDeg) vA).length = (domGet (solveDoms cwDeg) vB).length ∧
    degree cwDeg vA < degree cwDeg vB := by
  decide

/-! ### `assignment_complete` and `consistent` -/

theorem complete_binds {doms : Domains} {asg : Assignment}
    (h : assignment_complete doms asg = true) :
    ∀ p ∈ doms, ∃ w : Word, dictGet asg p.1 = some (some w) := by
  unfold assignment_complete at h
  intro p hp
  have hcheck := List.all_eq_true.mp h p hp
  rcases hg : dictGet asg p.1 with _ | ow
  · rw [hg] at hcheck
    exact absurd hcheck (by simp)
  · rcases ow with _ | w
    · rw [hg] at hcheck
      exact absurd hcheck (by simp)
    · exact ⟨w, rfl⟩

/-- C10: `assignment_complete` holds iff every variable of the domain
mapping is a key of the assignment with a non-`None` value; in
particular any variable mapped to `None` makes it `False`. -/
theorem c10_assignment_complete_iff (doms : Domains) (asg : Assignment) :
    (assignment_complete doms asg = true ↔
      ∀ p ∈ doms, ∃ w : Word, dictGet asg p.1 = some (some w)) ∧
    (∀ p ∈ doms, dictGet asg p.1 = some none →
      assignment_complete doms asg = false) := by
  constructor
  · constructor
    · exact complete_binds
    · intro hall
      unfold assignment_complete
      refine List.all_eq_true.mpr ?_
      intro p hp
      rcases hall p hp with ⟨w, hw⟩
      rw [hw]
  · intro p hp hnone
    rcases hcc : assignment_complete doms asg with _ | _
    · rfl
    · rcases complete_binds hcc p hp with ⟨w, hw⟩
      rw [hnone] at hw
      exact absurd (Option.some.inj hw) (by simp)

/-- C10 witness: a concrete complete assignment. -/
theorem c10_witness :
    assignment_complete [(vA, [['a','b']])] [(vA, some ['a','b'])] = true :=
  (c10_assignment_complete_iff [(vA, [['a','b']])] [(vA, some ['a','b'])]).1.mpr
    (by
      intro p hp
      simp at hp
      rw [hp]
      exact ⟨['a','b'], rfl⟩)

theorem consistent_nodup {cw : Crossword} {asg : Assignment}
    (h : consistent cw asg = true) : (asg.map Prod.snd).Nodup := by
  unfold consistent at h
  by_cases hn : (asg.map Prod.snd).Nodup
  · exact hn
  · rw [if_neg hn] at h
    exact absurd h (by simp)

theorem consistent_all {cw : Crossword} {asg : Assignment}
    (h : consistent cw asg = true) :
    ∀ p ∈ asg,
      (p.1.length == (p.2.getD []).length) = true ∧
      ∀ nb ∈ neighbors cw p.1, ∀ xi yi : Nat, ∀ nv : Option Word,
        overlapLookup cw p.1 nb = some (xi, yi) → dictGet asg nb = some nv →
        (p.2.getD []).getD xi ' ' = (nv.getD []).getD yi ' ' := by
  unfold consistent at h
  by_cases hn : (asg.map Prod.snd).Nodup
  · rw [if_pos hn] at h
    intro p hp
    have hall := List.all_eq_true.mp h p hp
    simp only [Bool.and_eq_true] at hall
    refine ⟨hall.1, ?_⟩
    intro nb hnb xi yi nv hov hget
    have h2 := List.all_eq_true.mp hall.2 nb hnb
    rw [hov, hget] at h2
    exact beq_iff_eq.mp h2
  · rw [if_neg hn] at h
    exact absurd h (by simp)

/-! ### Backtracking search -/

theorem tryValues_ok {cw : Crossword} {doms : Domains} {var : Variable}
    {bt : Assignment → Except PyErr (Bool × Assignment)}
    (hbt : ∀ a b r, bt a = Except.ok (b, r) → b = true →
      assignment_complete doms r = true ∧ consistent cw r = true) :
    ∀ vals asg b r, tryValues var bt vals asg = Except.ok (b, r) → b = true →
      assignment_complete doms r = true ∧ consistent cw r = true := by
  intro vals
  induction vals with
  | nil =>
    intro asg b r h hb
    simp only [tryValues, Except.ok.injEq, Prod.mk.injEq] at h
    rw [hb] at h
    exact absurd h.1 (by simp)
  | cons v vs ih =>
    intro asg b r h hb
    simp only [tryValues] at h
    by_cases hskip : asg.any (fun p => p.2 == some v)
    · rw [if_pos hskip] at h
      exact ih _ _ _ h hb
    · rw [if_neg hskip] at h
      rcases hbtc : bt (assocSet asg var (some v)) with e | br
      · rw [hbtc] at h
        exact absurd h (by simp)
      · rw [hbtc] at h
        obtain ⟨found, asg2⟩ := br
        have h2 : (if (found && !asg2.isEmpty) = true then
              (Except.ok (true, asg2) : Except PyErr (Bool × Assignment))
            else tryValues var bt vs (assocSet asg2 var none)) =
            Except.ok (b, r) := h
        by_cases htr : (found && !asg2.isEmpty) = true
        · rw [if_pos htr] at h2
          simp only [Except.ok.injEq, Prod.mk.injEq] at h2
          rw [← h2.2]
          exact hbt _ _ _ hbtc (by
            rw [Bool.and_eq_true] at htr
            exact htr.1)
        · rw [if_neg htr] at h2
          exact ih _ _ _ h2 hb

theorem backtrack_ok {cw : Crossword} {doms : Domains} :
    ∀ fuel asg b r, backtrack cw doms fuel asg = Except.ok (b, r) → b = true →
      assignment_complete doms r = true ∧ consistent cw r = true := by
  intro fuel
  induction fuel with
  | zero =>
    intro asg b r h hb
    exact absurd h (by simp [backtrack])
  | succ f ih =>
    intro asg b r h hb
    simp only [backtrack] at h
    by_cases hcc : (assignment_complete doms asg && consistent cw asg) = true
    · rw [if_pos hcc] at h
      simp only [Except.ok.injEq, Prod.mk.injEq] at h
      rw [← h.2]
      rw [Bool.and_eq_true] at hcc
      exact hcc
    · rw [if_neg hcc] at h
      rcases hsel : select_unassigned_variable doms asg with _ | var
      · rw [hsel] at h
        exact absurd h (by simp)
      · rw [hsel] at h
        exact tryValues_ok (fun a b2 r2 hh hb2 => ih a b2 r2 hh hb2) _ _ _ _ h hb

theorem tryValues_keys {doms : Domains} {var : Variable}
    (hvar : var ∈ doms.map Prod.fst)
    {bt : Assignment → Except PyErr (Bool × Assignment)}
    (hbt : ∀ a b r, bt a = Except.ok (b, r) →
      ∀ k ∈ r.map Prod.fst, k ∈ a.map Prod.fst ∨ k ∈ doms.map Prod.fst) :
    ∀ vals asg b r, tryValues var bt vals asg = Except.ok (b, r) →
      ∀ k ∈ r.map Prod.fst, k ∈ asg.map Prod.fst ∨ k ∈ doms.map Prod.fst := by
  intro vals
  induction vals with
  | nil =>
    intro asg b r h k hk
    simp only [tryValues, Except.ok.injEq, Prod.mk.injEq] at h
    rw [← h.2] at hk
    exact Or.inl hk
  | cons v vs ih =>
    intro asg b r h k hk
    simp only [tryValues] at h
    by_cases hskip : asg.any (fun p => p.2 == some v)
    · rw [if_pos hskip] at h
      exact ih _ _ _ h k hk
    · rw [if_neg hskip] at h
      rcases hbtc : bt (assocSet asg var (some v)) with e | br
      · rw [hbtc] at h
        exact absurd h (by simp)
      · rw [hbtc] at h
        obtain ⟨found, asg2⟩ := br
        have h2 : (if (found && !asg2.isEmpty) = true then
              (Except.ok (true, asg2) : Except PyErr (Bool × Assignment))
            else tryValues var bt vs (assocSet asg2 var none)) =
            Except.ok (b, r) := h
        have hkeys2 : ∀ k2 ∈ asg2.map Prod.fst,
            k2 ∈ asg.map Prod.fst ∨ k2 ∈ doms.map Prod.fst := by
          intro k2 hk2
          rcases hbt _ _ _ hbtc k2 hk2 with h' | h'
          · rcases assocSet_keys_sub asg var (some v) k2 h' with h'' | h''
            · rw [h'']
              exact Or.inr hvar
            · exact Or.inl h''
          · exact Or.inr h'
        by_cases htr : (found && !asg2.isEmpty) = true
        · rw [if_pos htr] at h2
          simp only [Except.ok.injEq, Prod.mk.injEq] at h2
          rw [← h2.2] at hk
          exact hkeys2 k hk
        · rw [if_neg htr] at h2
          have := ih _ _ _ h2 k hk
          rcases this with h' | h'
          · rcases assocSet_keys_sub asg2 var none k h' with h'' | h''
            · rw [h'']
              exact Or.inr hvar
            · exact hkeys2 k h''
          · exact Or.inr h'

theorem backtrack_keys {cw : Crossword} {doms : Domains} :
    ∀ fuel asg b r, backtrack cw doms fuel asg = Except.ok (b, r) →
      ∀ k ∈ r.map Prod.fst, k ∈ asg.map Prod.fst ∨ k ∈ doms.map Prod.fst := by
  intro fuel
  induction fuel with
  | zero =>
    intro asg b r h k hk
    exact absurd h (by simp [backtrack])
  | succ f ih =>
    intro asg b r h k hk
    simp only [backtrack] at h
    by_cases hcc : (assignment_complete doms asg && consistent cw asg) = true
    · rw [if_pos hcc] at h
      simp only [Except.ok.injEq, Prod.mk.injEq] at h
      rw [← h.2] at hk
      exact Or.inl hk
    · rw [if_neg hcc] at h
      rcases hsel : select_unassigned_variable doms asg with _ | var
      · rw [hsel] at h
        exact absurd h (by simp)
      · rw [hsel] at h
        obtain ⟨p, hp, hpv, _⟩ := select_some_unassigned hsel
        have hvar : var ∈ doms.map Prod.fst := List.mem_map.mpr ⟨p, hp, hpv⟩
        exact tryValues_keys hvar (fun a b2 r2 hh => ih a b2 r2 hh) _ _ _ _ h k hk

theorem tryValues_nodupKeys {var : Variable}
    {bt : Assignment → Except PyErr (Bool × Assignment)}
    (hbt : ∀ a b r, bt a = Except.ok (b, r) →
      (a.map Prod.fst).Nodup → (r.map Prod.fst).Nodup) :
    ∀ vals asg b r, tryValues var bt vals asg = Except.ok (b, r) →
      (asg.map Prod.fst).Nodup → (r.map Prod.fst).Nodup := by
  intro vals
  induction vals with
  | nil =>
    intro asg b r h hn
    simp only [tryValues, Except.ok.injEq, Prod.mk.injEq] at h
    rw [← h.2]
    exact hn
  | cons v vs ih =>
    intro asg b r h hn
    simp only [tryValues] at h
    by_cases hskip : asg.any (fun p => p.2 == some v)
    · rw [if_pos hskip] at h
      exact ih _ _ _ h hn
    · rw [if_neg hskip] at h
      rcases hbtc : bt (assocSet asg var (some v)) with e | br
      · rw [hbtc] at h
        exact absurd h (by simp)
      · rw [hbtc] at h
        obtain ⟨found, asg2⟩ := br
        have h2 : (if (found && !asg2.isEmpty) = true then
              (Except.ok (true, asg2) : Except PyErr (Bool × Assignment))
            else tryValues var bt vs (assocSet asg2 var none)) =
            Except.ok (b, r) := h
        have hn2 : (asg2.map Prod.fst).Nodup :=
          hbt _ _ _ hbtc (assocSet_keys_nodup hn var (some v))
        by_cases htr : (found && !asg2.isEmpty) = true
        · rw [if_pos htr] at h2
          simp only [Except.ok.injEq, Prod.mk.injEq] at h2
          rw [← h2.2]
          exact hn2
        · rw [if_neg htr] at h2
          exact ih _ _ _ h2 (assocSet_keys_nodup hn2 var none)

theorem backtrack_nodupKeys {cw : Crossword} {doms : Domains} :
    ∀ fuel asg b r, backtrack cw doms fuel asg = Except.ok (b, r) →
      (asg.map Prod.fst).Nodup → (r.map Prod.fst).Nodup := by
  intro fuel
  induction fuel with
  | zero =>
    intro asg b r h hn
    exact absurd h (by simp [backtrack])
  | succ f ih =>
    intro asg b r h hn
    simp only [backtrack] at h
    by_cases hcc : (assignment_complete doms asg && consistent cw asg) = true
    · rw [if_pos hcc] at h
      simp only [Except.ok.injEq, Prod.mk.injEq] at h
      rw [← h.2]
      exact hn
    · rw [if_neg hcc] at h
      rcases hsel : select_unassigned_variable doms asg with _ | var
      · rw [hsel] at h
        exact absurd h (by simp)
      · rw [hsel] at h
        exact tryValues_nodupKeys (fun a b2 r2 hh => ih a b2 r2 hh) _ _ _ _ h hn

theorem solveDoms_keys (cw : Crossword) :
    (solveDoms cw).map Prod.fst = cw.vars := by
  unfold solveDoms
  obtain ⟨b, d, hstep, heq⟩ :=
    ac3_eq_step cw (enforce_node_consistency (initDomains cw)) (initialArcs cw)
  rw [heq]
  have hk := ac3Step_keys cw _ _ _ _ _ hstep
  show d.map Prod.fst = cw.vars
  rw [hk]
  unfold enforce_node_consistency initDomains
  rw [List.map_map, List.map_map]
  show cw.vars.map (fun v => v) = cw.vars
  simp

/-! ### The stable sort of `order_domain_values` -/

theorem mem_insertByKey {key : Word → Nat} {x a : Word} :
    ∀ l : List Word, a ∈ insertByKey key x l ↔ a = x ∨ a ∈ l := by
  intro l
  induction l with
  | nil => simp [insertByKey]
  | cons y ys ih =>
    simp only [insertByKey]
    by_cases hc : key x ≤ key y
    · rw [if_pos hc]
      simp [List.mem_cons]
    · rw [if_neg hc]
      simp only [List.mem_cons, ih]
      tauto

theorem insertByKey_perm (key : Word → Nat) (x : Word) :
    ∀ l : List Word, (insertByKey key x l).Perm (x :: l) := by
  intro l
  induction l with
  | nil => exact List.Perm.refl _
  | cons y ys ih =>
    simp only [insertByKey]
    by_cases hc : key x ≤ key y
    · rw [if_pos hc]
    · rw [if_neg hc]
      exact (ih.cons y).trans (List.Perm.swap x y ys)

theorem sortByKey_perm (key : Word → Nat) :
    ∀ l : List Word, (sortByKey key l).Perm l := by
  intro l
  induction l with
  | nil => exact List.Perm.refl _
  | cons x xs ih =>
    simp only [sortByKey]
    exact (insertByKey_perm key x _).trans (ih.cons x)

theorem insertByKey_pairwise {key : Word → Nat} {x : Word} :
    ∀ {l : List Word}, List.Pairwise (fun a b => key a ≤ key b) l →
      List.Pairwise (fun a b => key a ≤ key b) (insertByKey key x l) := by
  intro l
  induction l with
  | nil =>
    intro _
    simp [insertByKey]
  | cons y ys ih =>
    intro hp
    rcases List.pairwise_cons.mp hp with ⟨hy, hys⟩
    simp only [insertByKey]
    by_cases hc : key x ≤ key y
    · rw [if_pos hc]
      refine List.pairwise_cons.mpr ⟨?_, hp⟩
      intro b hb
      rcases List.mem_cons.mp hb with hh | hh
      · rw [hh]
        exact hc
      · exact le_trans hc (hy b hh)
    · rw [if_neg hc]
      refine List.pairwise_cons.mpr ⟨?_, ih hys⟩
      intro b hb
      rcases (mem_insertByKey _).mp hb with hh | hh
      · rw [hh]
        omega
      · exact hy b hh

theorem sortByKey_pairwise (key : Word → Nat) :
    ∀ l : List Word, List.Pairwise (fun a b => key a ≤ key b) (sortByKey key l) := by
  intro l
  induction l with
  | nil => simp [sortByKey]
  | cons x xs ih =>
    simp only [sortByKey]
    exact insertByKey_pairwise ih

theorem insertByKey_filter (key : Word → Nat) (x : Word) (k : Nat) :
    ∀ l : List Word,
      (insertByKey key x l).filter (fun w => key w == k) =
        if (key x == k) = true then x :: l.filter (fun w => key w == k)
        else l.filter (fun w => key w == k) := by
  intro l
  induction l with
  | nil =>
    simp only [insertByKey, List.filter_cons, List.filter_nil]
  | cons y ys ih =>
    simp only [insertByKey]
    by_cases hc : key x ≤ key y
    · rw [if_pos hc]
      simp only [List.filter_cons]
    · rw [if_neg hc]
      simp only [List.filter_cons, ih]
      by_cases hyk : (key y == k) = true
      · by_cases hxk : (key x == k) = true
        · exfalso
          have h1 : key x = k := beq_iff_eq.mp hxk
          have h2 : key y = k := beq_iff_eq.mp hyk
          omega
        · rw [if_pos hyk, if_neg hxk, if_neg hxk, if_pos hyk]
      · by_cases hxk : (key x == k) = true
        · rw [if_neg hyk, if_pos hxk, if_pos hxk, if_neg hyk]
        · rw [if_neg hyk, if_neg hxk, if_neg hxk, if_neg hyk]

theorem sortByKey_filter (key : Word → Nat) (k : Nat) :
    ∀ l : List Word,
      (sortByKey key l).filter (fun w => key w == k) =
        l.filter (fun w => key w == k) := by
  intro l
  induction l with
  | nil => rfl
  | cons x xs ih =>
    simp only [sortByKey]
    rw [insertByKey_filter]
    simp only [List.filter_cons]
    by_cases hxk : (key x == k) = true
    · rw [if_pos hxk, if_pos hxk, ih]
    · rw [if_neg hxk, if_neg hxk, ih]

/-! ### Claim theorems about the search -/

/-- C3 (amended): `order_domain_values` is the stable ascending sort of
the variable's domain by the count of unassigned neighbors whose domain
contains the word — a permutation, ascending by the count, with every
count class kept in the domain's relative order.  `backtrack`, however,
does not consult it (see the counterexample): it tries the domain's
stored order. -/
theorem c3_odv_stable_sort (cw : Crossword) (doms : Domains) (v : Variable)
    (asg : Assignment) :
    (order_domain_values cw doms v asg).Perm (domGet doms v) ∧
    List.Pairwise (fun w1 w2 => ruleOutCount cw doms asg v w1 ≤
      ruleOutCount cw doms asg v w2) (order_domain_values cw doms v asg) ∧
    ∀ k : Nat, (order_domain_values cw doms v asg).filter
        (fun w => ruleOutCount cw doms asg v w == k) =
      (domGet doms v).filter (fun w => ruleOutCount cw doms asg v w == k) := by
  unfold order_domain_values
  exact ⟨sortByKey_perm _ _, sortByKey_pairwise _ _,
    fun k => sortByKey_filter _ _ _⟩

/-- C3 counterexample: on `cwOrder`, the embedded `backtrack` (which
iterates the stored domain) and the spec-faithful variant that iterates
`order_domain_values` return different solutions, so `backtrack` does
not try candidates in `order_domain_values` order. -/
theorem c3_counterexample :
    backtrack cwOrder (solveDoms cwOrder) 5 [] =
      Except.ok (true, [(vA, some ['c','c']), (vB, some ['a','c'])]) ∧
    backtrackOdv cwOrder (solveDoms cwOrder) 5 [] =
      Except.ok (true, [(vA, some ['c','x']), (vB, some ['c','c'])]) ∧
    ([(vA, some ['c','c']), (vB, some ['a','c'])] : Assignment) ≠
      [(vA, some ['c','x']), (vB, some ['c','c'])] :=
  ⟨rfl, rfl, by decide⟩

/-- C1: any assignment the solver returns (rather than the no-solution
signal `None` or an exception) is complete and consistent: it binds
every variable, its words are pairwise distinct, each word is as long as
its variable, and all overlapping pairs agree on the shared character. -/
theorem c1_solve_sound {cw : Crossword} (hwf : WF cw) (fuel : Nat)
    {a : Assignment} (h : solve cw fuel = Except.ok (true, a)) :
    assignment_complete (solveDoms cw) a = true ∧
    consistent cw a = true ∧
    (a.map Prod.snd).Nodup ∧
    (∀ v ∈ cw.vars, ∃ w : Word, dictGet a v = some (some w)) ∧
    (∀ p ∈ a, ∃ w : Word, p.2 = some w ∧ w.length = p.1.length) ∧
    (∀ p ∈ a, ∀ q ∈ a, ∀ xi yi : Nat,
      overlapLookup cw p.1 q.1 = some (xi, yi) →
      (p.2.getD []).getD xi ' ' = (q.2.getD []).getD yi ' ') := by
  unfold solve at h
  obtain ⟨hcomp, hcons⟩ := backtrack_ok _ _ _ _ h rfl
  have hkeys : ∀ k ∈ a.map Prod.fst, k ∈ (solveDoms cw).map Prod.fst := by
    intro k hk
    rcases backtrack_keys _ _ _ _ h k hk with h' | h'
    · exact absurd h' (by simp)
    · exact h'
  have hnodup : (a.map Prod.fst).Nodup :=
    backtrack_nodupKeys _ _ _ _ h (by simp)
  refine ⟨hcomp, hcons, consistent_nodup hcons, ?_, ?_, ?_⟩
  · intro v hv
    have hvk : v ∈ (solveDoms cw).map Prod.fst := by
      rw [solveDoms_keys]
      exact hv
    rcases List.mem_map.mp hvk with ⟨q, hq, hq1⟩
    rcases complete_binds hcomp q hq with ⟨w, hw⟩
    exact ⟨w, by rw [← hq1]; exact hw⟩
  · intro p hp
    have hget : dictGet a p.1 = some p.2 := entry_assocGet_of_nodup hnodup hp
    have hpk : p.1 ∈ (solveDoms cw).map Prod.fst :=
      hkeys p.1 (List.mem_map.mpr ⟨p, hp, rfl⟩)
    rcases List.mem_map.mp hpk with ⟨q, hq, hq1⟩
    rcases complete_binds hcomp q hq with ⟨w, hw⟩
    rw [hq1, hget] at hw
    have hpw : p.2 = some w := Option.some.inj hw
    refine ⟨w, hpw, ?_⟩
    have hlen := (consistent_all hcons p hp).1
    rw [hpw] at hlen
    exact (beq_iff_eq.mp hlen).symm
  · intro p hp q hq xi yi hov
    have hnb : q.1 ∈ neighbors cw p.1 := by
      obtain ⟨_, _, _, hsym⟩ := overlap_facts hwf hov
      exact mem_neighbors_of_overlap hwf hsym
    have hget : dictGet a q.1 = some q.2 := entry_assocGet_of_nodup hnodup hq
    exact (consistent_all hcons p hp).2 q.1 hnb xi yi q.2 hov hget

/-- C1 witness: the solver succeeds on `cwOrder` and the returned
assignment passes `consistent`. -/
theorem c1_witness :
    consistent cwOrder [(vA, some ['c','c']), (vB, some ['a','c'])] = true :=
  (c1_solve_sound (by decide) 5
    (show solve cwOrder 5 =
      Except.ok (true, [(vA, some ['c','c']), (vB, some ['a','c'])]) from
      rfl)).2.1

/-- C2 (code bug): on the satisfiable problem `cwCrash` the solver does
not return a result or the no-solution signal — it raises `KeyError`:
the search reaches the complete but inconsistent assignment
`{A: ab, B: bb}`, falls through the completeness check without undoing,
`select_unassigned_variable` returns `None` (every variable is a key),
and `self.domains[None]` raises.  The second and third conjuncts show a
solution exists. -/
theorem c2_crash_keyError :
    solve cwCrash 5 = Except.error PyErr.keyError ∧
    assignment_complete (solveDoms cwCrash)
      [(vA, some ['a','b']), (vB, some ['b','a'])] = true ∧
    consistent cwCrash [(vA, some ['a','b']), (vB, some ['b','a'])] = true :=
  ⟨rfl, by decide, by decide⟩

/-- C5 (code bug): after the failed search on `cwLeak` started from the
empty assignment, variable `A` — unassigned at call time — is left as a
key bound to `None`: it is not restored to "unassigned".
`assignment_complete` still treats it as unassigned, but
`select_unassigned_variable` (which tests key membership) skips it, so
once the other variable is bound the selector returns `None` on an
incomplete assignment — the mismatch behind the C2 crash. -/
theorem c5_undo_leaks_none :
    backtrack cwLeak (solveDoms cwLeak) 5 [] =
      Except.ok (false, [(vA, none)]) ∧
    dictGet ([] : Assignment) vA = none ∧
    dictGet [(vA, none)] vA = some none ∧
    assignment_complete (solveDoms cwLeak) [(vA, none)] = false ∧
    select_unassigned_variable (solveDoms cwLeak)
      [(vA, none), (vB, some ['a','b'])] = none ∧
    assignment_complete (solveDoms cwLeak)
      [(vA, none), (vB, some ['a','b'])] = false :=
  ⟨rfl, rfl, rfl, by decide, by decide, by decide⟩

end CrosswordGen
